import Mathlib

/-!
Verification of the FileList filtering core.

This file gives a shallow embedding of the repository's filtering core
(glob / regex / fuzzy matchers, the ignore-pattern resolver and the
orchestrating panel filter pass) and proves properties of it.

Strings are modelled as `List Char` (`Str`); JavaScript numbers used for
scores are modelled as exact rationals (`ℚ`).  All definitions are
translated from the TypeScript sources; the few places where an external
library or the runtime environment is abstracted are marked in the
corresponding doc comments.
-/

namespace FileList

/-- Strings of the embedded program, as lists of characters. -/
abbrev Str := List Char

/-- Whitespace test used by the model of JavaScript `String.prototype.trim`. -/
def isWS (c : Char) : Bool := c.isWhitespace

/-- Model of JavaScript `String.prototype.trim`: drop whitespace from both ends. -/
def jsTrim (s : Str) : Str := ((s.dropWhile isWS).reverse.dropWhile isWS).reverse

/-- Model of JavaScript `String.prototype.toLowerCase` (code-point-wise fold). -/
def lower (s : Str) : Str := s.map Char.toLower

/-- Model of JavaScript `String.prototype.split` with a one-character separator. -/
def splitOnChar (c : Char) : Str → List Str
  | [] => [[]]
  | x :: xs =>
    let r := splitOnChar c xs
    if x = c then [] :: r
    else
      match r with
      | [] => [[x]]
      | h :: t => (x :: h) :: t

/-- Shorthand turning a Lean string literal into the embedded string type. -/
def str (s : String) : Str := s.data

/-- Model of JavaScript `String.prototype.includes`: `needle` occurs as a
contiguous substring of `hay`. -/
def strIncludes (needle : Str) : Str → Bool
  | [] => needle.isPrefixOf []
  | c :: rest => needle.isPrefixOf (c :: rest) || strIncludes needle rest

/-- The three filter modes of `FilterType` in `src/types/index.ts`. -/
inductive FilterType where
  | glob
  | regex
  | fuzzy
deriving DecidableEq, Repr

/-- `FileItem` from `src/types/index.ts`.  `uri` is modelled by its path
string, `modified` by an integer timestamp. -/
structure FileItem where
  path : Str
  name : Str
  isDirectory : Bool
  size : Option Nat := none
  modified : Option Int := none
  ignored : Option Bool := none
  relativePath : Str
  uri : Str := []
deriving DecidableEq, Repr

/-- `FilterOptions` from `src/types/index.ts`. -/
structure FilterOptions where
  pattern : Str
  type : FilterType
  caseSensitive : Bool
  respectIgnore : Bool
  maxResults : Nat
deriving DecidableEq, Repr

/-- `IgnorePattern` from `src/types/index.ts`. -/
structure IgnorePattern where
  pattern : Str
  source : Str := []
  negated : Bool
deriving DecidableEq, Repr

/-! ## FuzzyFilter (`src/filters/fuzzyFilter.ts`) -/

/-- Result record of `FuzzyFilter.fuzzyMatch`. -/
structure FMatch where
  isMatch : Bool
  score : ℚ
deriving DecidableEq, Repr

/-- The scanning loop of `FuzzyFilter.fuzzyMatch`: walks the text once,
advancing the pattern pointer on equal characters, counting matched
characters and the longest consecutive run.  Returns
`(matches, maxConsecutiveMatches, remaining pattern length)`. -/
def fuzzyLoop : Str → Str → Nat → Nat → Nat → Nat × Nat × Nat
  | _, [], m, _, mx => (m, mx, 0)
  | [], p, m, _, mx => (m, mx, p.length)
  | t :: ts, q :: qs, m, c, mx =>
    if t = q then fuzzyLoop ts qs (m + 1) (c + 1) (max mx (c + 1))
    else fuzzyLoop ts (q :: qs) m 0 mx

/-- Number of matched characters reported by the scan of `fuzzyMatch`. -/
def matchedChars (text pattern : Str) : Nat := (fuzzyLoop text pattern 0 0 0).1

/-- Longest consecutive run reported by the scan of `fuzzyMatch`. -/
def longestRun (text pattern : Str) : Nat := (fuzzyLoop text pattern 0 0 0).2.1

/-- Unconsumed pattern length after the scan of `fuzzyMatch`. -/
def patternLeft (text pattern : Str) : Nat := (fuzzyLoop text pattern 0 0 0).2.2

/-- `FuzzyFilter.fuzzyMatch`: subsequence scan of `pattern` over `text`. -/
def fuzzyMatch (text pattern : Str) : FMatch :=
  if pattern.length = 0 then { isMatch := true, score := 1 }
  else
    { isMatch := patternLeft text pattern = 0
      score := (matchedChars text pattern : ℚ) / pattern.length * (7 / 10)
        + (longestRun text pattern : ℚ) / pattern.length * (3 / 10) }

/-- The case folding of `calculateFuzzyScore`: lowercase unless the filter
is case-sensitive. -/
def caseFold (caseSensitive : Bool) (s : Str) : Str :=
  if caseSensitive then s else lower s

/-- Exact-match tier of `calculateFuzzyScore` (first `if` statement):
`+100` for the name, else `+90` for the path. -/
def tierExact (sn sp spat : Str) : ℚ :=
  if sn = spat then 100 else if sp = spat then 90 else 0

/-- Starts-with tier of `calculateFuzzyScore` (second `if` statement):
`+80` for the name, else `+70` for the path. -/
def tierStarts (sn sp spat : Str) : ℚ :=
  if spat.isPrefixOf sn then 80 else if spat.isPrefixOf sp then 70 else 0

/-- Contains tier of `calculateFuzzyScore` (third `if` statement):
`+60` for the name, else `+50` for the path. -/
def tierContains (sn sp spat : Str) : ℚ :=
  if strIncludes spat sn then 60 else if strIncludes spat sp then 50 else 0

/-- Subsequence tier of `calculateFuzzyScore` (fourth `if` statement):
`+40 ·` name score, else `+30 ·` path score. -/
def tierFuzzy (sn sp spat : Str) : ℚ :=
  if (fuzzyMatch sn spat).isMatch then 40 * (fuzzyMatch sn spat).score
  else if (fuzzyMatch sp spat).isMatch then 30 * (fuzzyMatch sp spat).score
  else 0

/-- `FuzzyFilter.calculateFuzzyScore`: weighted additive score of a record
against a query.  The four tiers are separate sequential `score +=`
statements in the source — hence additive — each with an `else if` path
fallback, followed by a shorter-path bonus when the score is positive. -/
def calculateFuzzyScore (fileName relativePath pattern : Str)
    (caseSensitive : Bool) : ℚ :=
  let searchName := caseFold caseSensitive fileName
  let searchPath := caseFold caseSensitive relativePath
  let searchPattern := caseFold caseSensitive pattern
  let s4 : ℚ :=
    tierExact searchName searchPath searchPattern +
    tierStarts searchName searchPath searchPattern +
    tierContains searchName searchPath searchPattern +
    tierFuzzy searchName searchPath searchPattern
  if s4 > 0 then s4 + max 0 (1 - (relativePath.length : ℚ) / 100) * 10
  else s4

/-- The score the advanced fuzzy pass assigns to a file under given options
(the pattern is lowercased once by `applyAdvanced` before scoring). -/
def scoreOf (options : FilterOptions) (file : FileItem) : ℚ :=
  calculateFuzzyScore file.name file.relativePath (lower options.pattern)
    options.caseSensitive

/-- Scored entry collected by `FuzzyFilter.applyAdvanced`. -/
structure ScoredItem where
  item : FileItem
  score : ℚ
deriving DecidableEq, Repr

/-- One step of the stable descending sort: insert an element before the
first entry whose score is less than or equal to its own (the element being
inserted comes earlier in the input than everything already inserted). -/
def insertDesc (x : ScoredItem) : List ScoredItem → List ScoredItem
  | [] => [x]
  | y :: ys => if y.score ≤ x.score then x :: y :: ys else y :: insertDesc x ys

/-- Stable descending sort by score.  JavaScript `Array.prototype.sort` is
required to be stable (ES2019); for the consistent comparator
`(a, b) => b.score - a.score` used in `applyAdvanced`, a stable sort is
uniquely determined, and this insertion sort realises it. -/
def sortDesc (l : List ScoredItem) : List ScoredItem := l.foldr insertDesc []

/-- The `results` array built by `FuzzyFilter.applyAdvanced`: every file
with a strictly positive score, paired with its score, in input order. -/
def scoreEntries (files : List FileItem) (options : FilterOptions) :
    List ScoredItem :=
  files.filterMap fun file =>
    if 0 < scoreOf options file then
      some { item := file, score := scoreOf options file }
    else none

/-- `FuzzyFilter.applyAdvanced`: custom fuzzy scoring pass — score every
file against the lowercased pattern (see `scoreOf`), keep the strictly
positive scores, sort by score descending (stable) and truncate to
`maxResults`. -/
def applyAdvanced (files : List FileItem) (options : FilterOptions) :
    List FileItem :=
  if jsTrim options.pattern = [] then files
  else ((sortDesc (scoreEntries files options)).take options.maxResults).map
    ScoredItem.item

/-! ## GlobFilter (`src/filters/globFilter.ts`) -/

/-- The opening curly brace character. -/
def lbrace : Char := Char.ofNat 123

/-- The closing curly brace character. -/
def rbrace : Char := Char.ofNat 125

/-- Split a string at its first opening brace; `none` when there is none. -/
def splitAtBrace : Str → Option (Str × Str)
  | [] => none
  | c :: cs =>
    if c = lbrace then some ([], cs)
    else (splitAtBrace cs).map fun pr => (c :: pr.1, pr.2)

/-- Scan for the brace closing the current alternation group, tracking
nesting depth; returns the body and the remainder after the brace. -/
def scanBraceGroup : Str → Nat → Option (Str × Str)
  | [], _ => none
  | c :: cs, d =>
    if c = rbrace then
      if d = 0 then some ([], cs)
      else (scanBraceGroup cs (d - 1)).map fun pr => (c :: pr.1, pr.2)
    else if c = lbrace then (scanBraceGroup cs (d + 1)).map fun pr => (c :: pr.1, pr.2)
    else (scanBraceGroup cs d).map fun pr => (c :: pr.1, pr.2)

/-- Split a brace body at its top-level commas. -/
def splitTopCommas : Str → Nat → List Str
  | [], _ => [[]]
  | c :: cs, d =>
    if c = ',' ∧ d = 0 then [] :: splitTopCommas cs d
    else
      let d' := if c = lbrace then d + 1 else if c = rbrace then d - 1 else d
      match splitTopCommas cs d' with
      | [] => [[c]]
      | h :: t => (c :: h) :: t

/-- Modelled from the spec: brace alternation `{a,b}` of the third-party
`minimatch` glob engine (the engine itself is not part of this repository).
Expands every alternation group; a string without a matched brace pair
expands to itself. -/
def expandBraces : Nat → Str → List Str
  | 0, s => [s]
  | fuel + 1, s =>
    match splitAtBrace s with
    | none => [s]
    | some (pre, rest) =>
      match scanBraceGroup rest 0 with
      | none => [s]
      | some (body, post) =>
        ((splitTopCommas body 0).map fun alt =>
          expandBraces fuel (pre ++ alt ++ post)).flatten

/-- Atom of a compiled glob segment. -/
inductive GElem where
  | lit (c : Char)
  | one
  | star
  | cls (neg : Bool) (ranges : List (Char × Char))
deriving DecidableEq, Repr

/-- Scan a glob character class after `[`: optional `!`/`^` negation, then
items (singles, ranges, escapes) until `]`.  `none` when unterminated, in
which case the opening bracket is treated as a literal.  Fuelled to keep
the recursion structural; each step consumes at least one character, so
`length + 1` fuel suffices. -/
def scanGlobClass : Nat → Bool → Str → Option (List (Char × Char) × Str)
  | 0, _, _ => none
  | _ + 1, _, [] => none
  | fuel + 1, first, c :: cs =>
    if c = ']' ∧ ¬ first then some ([], cs)
    else if c = '\\' then
      match cs with
      | [] => none
      | e :: cs' => (scanGlobClass fuel false cs').map fun pr => ((e, e) :: pr.1, pr.2)
    else
      match cs with
      | '-' :: e :: cs' =>
        if e ≠ ']' then (scanGlobClass fuel false cs').map fun pr => ((c, e) :: pr.1, pr.2)
        else (scanGlobClass fuel false ('-' :: e :: cs')).map fun pr => ((c, c) :: pr.1, pr.2)
      | other => (scanGlobClass fuel false other).map fun pr => ((c, c) :: pr.1, pr.2)

/-- Compile one slash-free glob segment to a list of atoms (fuelled). -/
def compileSeg : Nat → Str → List GElem
  | 0, _ => []
  | _ + 1, [] => []
  | fuel + 1, c :: cs =>
    if c = '\\' then
      match cs with
      | [] => [.lit '\\']
      | e :: cs' => .lit e :: compileSeg fuel cs'
    else if c = '*' then .star :: compileSeg fuel cs
    else if c = '?' then .one :: compileSeg fuel cs
    else if c = '[' then
      match cs with
      | '!' :: cs' =>
        match scanGlobClass (cs'.length + 1) true cs' with
        | some (rs, rest) => .cls true rs :: compileSeg fuel rest
        | none => .lit '[' :: compileSeg fuel cs
      | '^' :: cs' =>
        match scanGlobClass (cs'.length + 1) true cs' with
        | some (rs, rest) => .cls true rs :: compileSeg fuel rest
        | none => .lit '[' :: compileSeg fuel cs
      | _ =>
        match scanGlobClass (cs.length + 1) true cs with
        | some (rs, rest) => .cls false rs :: compileSeg fuel rest
        | none => .lit '[' :: compileSeg fuel cs
    else .lit c :: compileSeg fuel cs

/-- One-character match for a glob atom (`star` handled by `matchGElems`). -/
def gAtomMatch (e : GElem) (c : Char) : Bool :=
  match e with
  | .lit c' => c = c'
  | .one => true
  | .star => true
  | .cls neg rs =>
    let inside := rs.any fun r => r.1 ≤ c ∧ c ≤ r.2
    if neg then !inside else inside

/-- Backtracking matcher for one glob segment against one path segment;
`star` matches any run of characters within the segment.  The fuel
argument makes the recursion structural; every recursive call decreases
the lexicographic measure on (characters, atoms), so
`(atoms + 1) * (characters + 1)` fuel always suffices. -/
def matchGElems : Nat → List GElem → Str → Bool
  | 0, _, _ => false
  | _ + 1, [], [] => true
  | _ + 1, [], _ :: _ => false
  | fuel + 1, .star :: es, cs =>
    matchGElems fuel es cs ||
      (match cs with
       | [] => false
       | _ :: cs' => matchGElems fuel (.star :: es) cs')
  | _ + 1, _ :: _, [] => false
  | fuel + 1, e :: es, c :: cs => gAtomMatch e c && matchGElems fuel es cs

/-- Fuel sufficient for `matchGElems` on the given arguments. -/
def gFuel (es : List GElem) (cs : Str) : Nat := (es.length + 1) * (cs.length + 1)

/-- Match a list of glob pattern segments against path segments; a segment
that is exactly `**` (globstar) matches zero or more path segments.
`segFuel` feeds the per-segment compiler, `fuel` makes the recursion
structural (the lexicographic measure on (path segments, pattern segments)
bounds it). -/
def matchSegs (segFuel : Nat) : Nat → List Str → List Str → Bool
  | 0, _, _ => false
  | _ + 1, [], [] => true
  | _ + 1, [], _ :: _ => false
  | fuel + 1, p :: ps, paths =>
    if p = str "**" then
      matchSegs segFuel fuel ps paths ||
        (match paths with
         | [] => false
         | _ :: rest => matchSegs segFuel fuel (p :: ps) rest)
    else
      match paths with
      | [] => false
      | x :: xs =>
        (let es := compileSeg segFuel p
         matchGElems (gFuel es x) es x) && matchSegs segFuel fuel ps xs

/-- Modelled from the spec: the third-party `minimatch` engine as configured
by `GlobFilter` (`dot:true`, `matchBase:true`, `nocase` from the options) is
not part of this repository; this models the glob semantics the spec
prescribes — `*` within a segment, `**` across segments, `?`, `{a,b}`
alternation, `[...]` classes, base-name matching for slash-free patterns,
and case folding when `nocase` is set (`dot:true` disables hidden-file
special-casing, so dots need no handling). -/
def minimatchModel (path pattern : Str) (nocase : Bool) : Bool :=
  (expandBraces (pattern.length + 1) pattern).any fun pat =>
    let pat := if nocase then lower pat else pat
    let target := if nocase then lower path else path
    let psegs := splitOnChar '/' pat
    let fsegs := splitOnChar '/' target
    let fl := (psegs.length + 1) * (fsegs.length + 1)
    matchSegs (pat.length + 1) fl psegs fsegs ||
      (!pat.contains '/' && target.contains '/' &&
        (match fsegs.getLast? with
         | some base => matchSegs (pat.length + 1) fl psegs [base]
         | none => false))

/-- `GlobFilter.parsePatterns`: split on commas, trim, drop empties, and
separate `!`-led exclusions (stripped of the `!`) from inclusions. -/
def GlobFilter.parsePatterns (pattern : Str) : List Str × List Str :=
  let patterns := ((splitOnChar ',' pattern).map jsTrim).filter (· ≠ [])
  (patterns.filter fun p => p.head? ≠ some '!',
   (patterns.filter fun p => p.head? = some '!').map List.tail)

/-- `GlobFilter.apply`: a record passes when (there are no inclusion
patterns or its `relativePath` matches one) and it matches no exclusion
pattern; blank patterns return the input unchanged. -/
def GlobFilter.apply (files : List FileItem) (options : FilterOptions) :
    List FileItem :=
  if jsTrim options.pattern = [] then files
  else
    files.filter fun file =>
      ((GlobFilter.parsePatterns options.pattern).1.isEmpty ||
        (GlobFilter.parsePatterns options.pattern).1.any fun p =>
          minimatchModel file.relativePath p !options.caseSensitive) &&
      !((GlobFilter.parsePatterns options.pattern).2.any fun p =>
          minimatchModel file.relativePath p !options.caseSensitive)

/-! ## RegexFilter (`src/filters/regexFilter.ts`)

The JavaScript regular-expression engine is external to the repository: its
syntax validity is modelled by `reCheck` (Annex B, non-unicode: quantifiers
need a quantifiable atom before them, classes and groups must be closed,
escaping is accepted liberally), and its matching behaviour is abstracted
as an opaque `test` function parameter together with an `elapsed`
wall-clock oracle giving the milliseconds a test takes. -/

/-- A compiled JavaScript regular expression: source and flags. -/
structure JSRegex where
  source : Str
  flags : Str
deriving DecidableEq, Repr

/-- The valid regex flag characters accepted by `RegexFilter.parsePattern`. -/
def gimuyFlags : Str := str "gimuy"

/-- Line terminators, which JavaScript `.` does not match. -/
def isLineTerm (c : Char) : Bool :=
  c = '\n' || c = '\r' || c.toNat = 0x2028 || c.toNat = 0x2029

/-- Split at the last slash whose suffix consists only of flag characters
(the greedy `(.+)` of the wrap-detection regex backtracks to exactly this
slash). -/
def splitLastSlash : Str → Option (Str × Str)
  | [] => none
  | c :: cs =>
    match splitLastSlash cs with
    | some pr => some (c :: pr.1, pr.2)
    | none =>
      if c = '/' ∧ cs.all (fun x => gimuyFlags.contains x) then some ([], cs)
      else none

/-- `RegexFilter.parsePattern`: recognise `/expr/flags` (via the source's
`^\/(.+)\/([gimuy]*)$` test, whose `.` excludes line terminators and whose
group must be non-empty); otherwise the pattern is bare with no flags. -/
def parsePattern (p : Str) : Str × Str :=
  if p.head? = some '/' then
    match splitLastSlash p.tail with
    | some (body, flags) =>
      if body ≠ [] ∧ body.all (fun c => !isLineTerm c) then (body, flags)
      else (p, [])
    | none => (p, [])
  else (p, [])

/-- Parser state for the regex validity check: what the previous construct
was, which decides whether a quantifier may appear. -/
inductive RState where
  | start
  | atom
  | quant
  | quantLazy
deriving DecidableEq, Repr

/-- Scan a regex character class after `[` until the closing `]` (a `]` in
first position closes an empty class); `none` when unterminated. -/
def scanClassRe : Str → Option Str
  | [] => none
  | c :: cs =>
    if c = ']' then some cs
    else if c = '\\' then
      match cs with
      | [] => none
      | _ :: cs' => scanClassRe cs'
    else scanClassRe cs

/-- Scan to the `>` closing a named-group header. -/
def scanGroupName : Str → Option Str
  | [] => none
  | c :: cs => if c = '>' then some cs else scanGroupName cs

/-- Recognise the header of a group after `(`: plain, `?:`, lookarounds and
named groups are valid; any other `(?` form is a syntax error. -/
def groupIntro : Str → Option Str
  | '?' :: ':' :: r => some r
  | '?' :: '=' :: r => some r
  | '?' :: '!' :: r => some r
  | '?' :: '<' :: '=' :: r => some r
  | '?' :: '<' :: '!' :: r => some r
  | '?' :: '<' :: r => scanGroupName r
  | '?' :: _ => none
  | r => some r

/-- Numeric value of a digit run. -/
def digitsToNat (ds : Str) : Nat := ds.foldl (fun a c => a * 10 + (c.toNat - 48)) 0

/-- Recognise a braced quantifier after `{`: `some (some rest)` for a valid
`{n}`/`{n,}`/`{n,m}` with `n ≤ m`, `some none` for a braced quantifier with
numbers out of order (a syntax error), `none` when the braces do not form a
quantifier (then `{` is a literal). -/
def scanBraceQuant (s : Str) : Option (Option Str) :=
  let d1 := s.takeWhile Char.isDigit
  let r1 := s.dropWhile Char.isDigit
  if d1 = [] then none
  else if r1.head? = some rbrace then some (some r1.tail)
  else if r1.head? = some ',' then
    let d2 := r1.tail.takeWhile Char.isDigit
    let r2 := r1.tail.dropWhile Char.isDigit
    if r2.head? = some rbrace then
      if d2 = [] then some (some r2.tail)
      else if digitsToNat d1 ≤ digitsToNat d2 then some (some r2.tail)
      else some none
    else none
  else none

/-- Validity check for JavaScript (Annex B, non-unicode) regex syntax:
quantifiers must follow a quantifiable atom (so `[`-errors, `(?` errors,
unmatched parentheses, trailing backslashes and `^*`-style "nothing to
repeat" are rejected); escape and class contents are accepted liberally. -/
def reCheck : Nat → Str → Nat → RState → Bool
  | 0, _, _, _ => false
  | _ + 1, [], depth, _ => depth = 0
  | fuel + 1, c :: rest, depth, prev =>
    if c = '(' then
      match groupIntro rest with
      | some r => reCheck fuel r (depth + 1) .start
      | none => false
    else if c = ')' then
      decide (0 < depth) && reCheck fuel rest (depth - 1) .atom
    else if c = '[' then
      match scanClassRe rest with
      | some r => reCheck fuel r depth .atom
      | none => false
    else if c = '\\' then
      match rest with
      | [] => false
      | _ :: r => reCheck fuel r depth .atom
    else if c = '*' ∨ c = '+' then
      decide (prev = .atom) && reCheck fuel rest depth .quant
    else if c = '?' then
      (decide (prev = .atom) || decide (prev = .quant)) &&
        reCheck fuel rest depth (if prev = .atom then .quant else .quantLazy)
    else if c = lbrace then
      match scanBraceQuant rest with
      | some (some r) =>
        if prev = .atom then reCheck fuel r depth .quant
        else reCheck fuel rest depth .atom
      | some none => if prev = .atom then false else reCheck fuel rest depth .atom
      | none => reCheck fuel rest depth .atom
    else if c = '|' then reCheck fuel rest depth .start
    else if c = '^' ∨ c = '$' then reCheck fuel rest depth .start
    else reCheck fuel rest depth .atom

/-- Whole-pattern regex syntax validity. -/
def reValid (body : Str) : Bool := reCheck (body.length + 1) body 0 .start

/-- `RegexFilter.timeoutMs`: the per-test wall-clock budget in milliseconds. -/
def timeoutMs : Nat := 1000

/-- `RegexFilter.createRegex`: parse the pattern, add the `i` flag when the
filter is case-insensitive and the flags lack it, and compile; `none` when
`new RegExp` would throw (bad syntax or duplicated flags). -/
def createRegex (pattern : Str) (caseSensitive : Bool) : Option JSRegex :=
  let pf := parsePattern pattern
  let flags := if ¬ caseSensitive ∧ ¬ pf.2.contains 'i' then pf.2 ++ ['i'] else pf.2
  if reValid pf.1 ∧ flags.Nodup then some ⟨pf.1, flags⟩ else none

/-- `RegexFilter.isValid`: blank patterns are valid; otherwise the parsed
pattern must compile (`new RegExp(regexPattern, flags)` must not throw). -/
def RegexFilter.isValid (pattern : Str) : Bool :=
  if jsTrim pattern = [] then true
  else
    let pf := parsePattern pattern
    reValid pf.1 && decide pf.2.Nodup

/-- `RegexFilter.testWithTimeout`: run the test, then compare the elapsed
wall clock against the budget; an over-budget test throws internally, is
caught, and reports `false`. -/
def testWithTimeout (test : JSRegex → Str → Bool)
    (elapsed : JSRegex → Str → Nat) (regex : JSRegex) (text : Str) : Bool :=
  if elapsed regex text > timeoutMs then false else test regex text

/-- `RegexFilter.apply`: blank patterns return the input; a pattern that
fails to compile yields `[]` (the `catch` branch); otherwise keep the files
whose `relativePath` or `name` passes the time-guarded test. -/
def RegexFilter.apply (test : JSRegex → Str → Bool)
    (elapsed : JSRegex → Str → Nat) (files : List FileItem)
    (options : FilterOptions) : List FileItem :=
  if jsTrim options.pattern = [] then files
  else
    match createRegex options.pattern options.caseSensitive with
    | none => []
    | some regex =>
      files.filter fun file =>
        testWithTimeout test elapsed regex file.relativePath ||
        testWithTimeout test elapsed regex file.name

/-! ## IgnoreService (`src/services/ignoreService.ts`) -/

/-- Atom of the regex produced by `globToRegex`. -/
inductive RAtom where
  | lit (c : Char)
  | any
deriving DecidableEq, Repr

/-- Token of the regex produced by `globToRegex`: a single atom or a
starred atom. -/
inductive RTok where
  | once (a : RAtom)
  | star (a : RAtom)
deriving DecidableEq, Repr

/-- `IgnoreService.globToRegex`, compiled to tokens.  The source escapes
`.+?^$|()[]{}` (making them literals), turns `?` into `.`, and leaves `*`
bare — so in the compiled JavaScript regex a `*` quantifies the preceding
atom (it does *not* become `.*`), and a `*` with nothing quantifiable
before it (pattern-initial, or doubled) makes `new RegExp` throw
("nothing to repeat"), modelled as `none`.  Patterns containing a literal
backslash interact with the escaping step in ways outside this model and
are conservatively mapped to `none`; no theorem below depends on them. -/
def compileIgnoreGlob : Str → List RTok → Option (List RTok)
  | [], acc => some acc.reverse
  | c :: rest, acc =>
    if c = '\\' then none
    else if c = '*' then
      match acc with
      | [] => none
      | .star _ :: _ => none
      | .once a :: t => compileIgnoreGlob rest (.star a :: t)
    else if c = '?' then compileIgnoreGlob rest (.once .any :: acc)
    else compileIgnoreGlob rest (.once (.lit c) :: acc)

/-- One-character match for a `globToRegex` atom (`.` excludes line
terminators). -/
def rAtomMatch (a : RAtom) (c : Char) : Bool :=
  match a with
  | .lit c' => c = c'
  | .any => !isLineTerm c

/-- Anchored (`^...$`) match of a `globToRegex` token list; the fuel makes
the recursion structural, `(tokens + 1) * (characters + 1)` always
suffices for the lexicographic descent on (characters, tokens). -/
def matchToks : Nat → List RTok → Str → Bool
  | 0, _, _ => false
  | _ + 1, [], [] => true
  | _ + 1, [], _ :: _ => false
  | _ + 1, .once _ :: _, [] => false
  | fuel + 1, .once a :: ts, c :: cs => rAtomMatch a c && matchToks fuel ts cs
  | fuel + 1, .star a :: ts, cs =>
    matchToks fuel ts cs ||
      (match cs with
       | [] => false
       | c :: cs' => rAtomMatch a c && matchToks fuel (.star a :: ts) cs')

/-- `IgnoreService.matchesPattern`: directory patterns (trailing `/`) are a
string-prefix test, patterns containing `*` go through `globToRegex`
(`none` models the exception `new RegExp` can throw there), root-anchored
patterns (leading `/`) match exactly or as a directory, and all other
patterns are tried against every suffix of the path's segment list. -/
def matchesPatternE (filePath pattern : Str) : Option Bool :=
  if pattern.getLast? = some '/' then
    some (List.isPrefixOf (pattern.dropLast ++ ['/']) filePath)
  else if pattern.contains '*' then
    (compileIgnoreGlob pattern []).map fun toks =>
      matchToks ((toks.length + 1) * (filePath.length + 1)) toks filePath
  else if pattern.head? = some '/' then
    some (decide (filePath = pattern.tail) ||
      List.isPrefixOf (pattern.tail ++ ['/']) filePath)
  else
    let segments := splitOnChar '/' filePath
    some ((List.range segments.length).any fun i =>
      let subPath := List.intercalate ['/'] (segments.drop i)
      decide (subPath = pattern) || List.isPrefixOf (pattern ++ ['/']) subPath)

/-- The loop of `IgnoreService.matchesIgnorePattern`: each matching pattern
overwrites the cumulative `ignored` flag with the negation of its `negated`
flag; an exception from `matchesPattern` propagates (`none`). -/
def matchesIgnoreGo (filePath : Str) : List IgnorePattern → Bool → Option Bool
  | [], acc => some acc
  | p :: rest, acc =>
    match matchesPatternE filePath p.pattern with
    | none => none
    | some true => matchesIgnoreGo filePath rest !p.negated
    | some false => matchesIgnoreGo filePath rest acc

/-- `IgnoreService.matchesIgnorePattern`: fold the patterns in file order
over an initially-false `ignored` flag. -/
def matchesIgnorePattern (filePath : Str) (patterns : List IgnorePattern) :
    Option Bool :=
  matchesIgnoreGo filePath patterns false

/-! ## FileListPanel (`src/panels/fileListPanel.ts`) -/

/-- `FileListPanel.applyCurrentFilter`: a blank pattern short-circuits to
the input sliced to `maxResults`; otherwise dispatch on the filter type and
slice the matcher's output to `maxResults`.  The fuzzy branch calls the
Fuse.js-backed `FuzzyFilter.apply`, a third-party engine abstracted here as
the `fuzzyApply` parameter; the embedded matchers are total, so the
source's `catch`-to-`[]` branch cannot fire.  The `switch`'s `default`
branch is unreachable for the three-valued `FilterType`. -/
def applyCurrentFilter (fuzzyApply : List FileItem → FilterOptions → List FileItem)
    (test : JSRegex → Str → Bool) (elapsed : JSRegex → Str → Nat)
    (files : List FileItem) (currentFilter : FilterOptions) : List FileItem :=
  if jsTrim currentFilter.pattern = [] then files.take currentFilter.maxResults
  else
    (match currentFilter.type with
     | .glob => GlobFilter.apply files currentFilter
     | .regex => RegexFilter.apply test elapsed files currentFilter
     | .fuzzy => fuzzyApply files currentFilter).take currentFilter.maxResults

/-! ## Concrete inputs used by witnesses and counterexamples -/

/-- A record named `q` under directory `b` (tie-order counterexample). -/
def c9A : FileItem :=
  { path := str "/w/b/q", name := str "q", isDirectory := false,
    relativePath := str "b/q" }

/-- A record named `q` under directory `a` (tie-order counterexample). -/
def c9B : FileItem :=
  { path := str "/w/a/q", name := str "q", isDirectory := false,
    relativePath := str "a/q" }

/-- Fuzzy options with query `q` (tie-order counterexample). -/
def c9Opts : FilterOptions :=
  { pattern := str "q", type := FilterType.fuzzy, caseSensitive := false,
    respectIgnore := false, maxResults := 100 }

/-- `a.ts` record for the glob negation test. -/
def gA : FileItem :=
  { path := str "/w/a.ts", name := str "a.ts", isDirectory := false,
    relativePath := str "a.ts" }

/-- `a.spec.ts` record for the glob negation test. -/
def gB : FileItem :=
  { path := str "/w/a.spec.ts", name := str "a.spec.ts", isDirectory := false,
    relativePath := str "a.spec.ts" }

/-- Glob options with the negation pattern `!*.spec.ts`. -/
def gOpts : FilterOptions :=
  { pattern := str "!*.spec.ts", type := FilterType.glob,
    caseSensitive := false, respectIgnore := false, maxResults := 100 }

/-- Fuzzy options with query `zzz`, matching nothing in the sample files. -/
def c4Opts : FilterOptions :=
  { pattern := str "zzz", type := FilterType.fuzzy, caseSensitive := false,
    respectIgnore := false, maxResults := 100 }

/-- Options with a blank pattern (empty-pattern identity witness). -/
def c6Opts : FilterOptions :=
  { pattern := [], type := FilterType.glob, caseSensitive := false,
    respectIgnore := false, maxResults := 100 }

/-- Regex options with the invalid pattern `[`. -/
def c5Opts : FilterOptions :=
  { pattern := str "[", type := FilterType.regex, caseSensitive := false,
    respectIgnore := false, maxResults := 100 }

/-- Regex options with the pattern `a` (timeout witness). -/
def c7Opts : FilterOptions :=
  { pattern := str "a", type := FilterType.regex, caseSensitive := false,
    respectIgnore := false, maxResults := 100 }

/-- The directory-pattern semantics the claim ascribes to
`IgnoreService.matchesPattern` for patterns ending in `/`: the path equals
the pattern minus its trailing slash, or lies strictly under it.  Stated
from the claim's words, to be compared with the source behaviour. -/
def dirPatternSpec (filePath pattern : Str) : Bool :=
  decide (filePath = pattern.dropLast) ||
    List.isPrefixOf (pattern.dropLast ++ ['/']) filePath

/-! ## Helper lemmas on strings -/

theorem isPrefixOf_iff_append : ∀ (a b : Str),
    a.isPrefixOf b = true ↔ ∃ t, b = a ++ t := by
  intro a
  induction a with
  | nil => intro b; simp [List.isPrefixOf]
  | cons c cs ih =>
    intro b
    cases b with
    | nil => simp [List.isPrefixOf]
    | cons d ds =>
      simp only [List.isPrefixOf, Bool.and_eq_true, beq_iff_eq, ih,
        List.cons_append, List.cons.injEq]
      constructor
      · rintro ⟨rfl, t, rfl⟩; exact ⟨t, rfl, rfl⟩
      · rintro ⟨t, rfl, rfl⟩; exact ⟨rfl, t, rfl⟩

theorem isPrefixOf_refl (l : Str) : l.isPrefixOf l = true :=
  (isPrefixOf_iff_append l l).2 ⟨[], (List.append_nil l).symm⟩

theorem strIncludes_refl (l : Str) : strIncludes l l = true := by
  cases l with
  | nil => simp [strIncludes, List.isPrefixOf]
  | cons c cs => simp [strIncludes, isPrefixOf_refl]

theorem strIncludes_sublist {q s : Str} (h : strIncludes q s = true) :
    q.Sublist s := by
  induction s with
  | nil =>
    simp only [strIncludes] at h
    obtain ⟨t, ht⟩ := (isPrefixOf_iff_append q []).1 h
    rcases List.append_eq_nil.1 ht.symm with ⟨rfl, -⟩
    exact List.Sublist.refl []
  | cons c rest ih =>
    simp only [strIncludes, Bool.or_eq_true] at h
    rcases h with h | h
    · obtain ⟨t, ht⟩ := (isPrefixOf_iff_append q (c :: rest)).1 h
      rw [ht]; exact List.sublist_append_left q t
    · exact (ih h).cons c

/-! ## Lemmas about the fuzzy scan -/

theorem fuzzyLoop_left_eq_zero_iff (t : Str) : ∀ (p : Str) (m c mx : Nat),
    (fuzzyLoop t p m c mx).2.2 = 0 ↔ p.Sublist t := by
  induction t with
  | nil =>
    intro p m c mx
    cases p with
    | nil => simp [fuzzyLoop]
    | cons q qs => simp [fuzzyLoop, List.sublist_nil]
  | cons a ts ih =>
    intro p m c mx
    cases p with
    | nil => simp [fuzzyLoop]
    | cons q qs =>
      by_cases h : a = q
      · subst h
        rw [show fuzzyLoop (a :: ts) (a :: qs) m c mx
            = fuzzyLoop ts qs (m + 1) (c + 1) (max mx (c + 1)) by simp [fuzzyLoop]]
        rw [ih qs]
        exact List.cons_sublist_cons.symm
      · rw [show fuzzyLoop (a :: ts) (q :: qs) m c mx
            = fuzzyLoop ts (q :: qs) m 0 mx by simp [fuzzyLoop, h]]
        rw [ih (q :: qs)]
        constructor
        · exact fun hs => hs.cons a
        · intro hs
          cases hs with
          | cons _ hs => exact hs
          | cons₂ _ hs => exact absurd rfl h

theorem fuzzyLoop_self (s : Str) : ∀ (m c mx : Nat), c ≤ mx →
    fuzzyLoop s s m c mx = (m + s.length, max mx (c + s.length), 0) := by
  induction s with
  | nil =>
    intro m c mx h
    simp only [fuzzyLoop, List.length_nil, Nat.add_zero, Prod.mk.injEq]
    exact ⟨trivial, (Nat.max_eq_left h).symm, trivial⟩
  | cons a as ih =>
    intro m c mx h
    rw [show fuzzyLoop (a :: as) (a :: as) m c mx
        = fuzzyLoop as as (m + 1) (c + 1) (max mx (c + 1)) by simp [fuzzyLoop]]
    rw [ih (m + 1) (c + 1) (max mx (c + 1)) (Nat.le_max_right _ _)]
    simp only [List.length_cons, Prod.mk.injEq]
    refine ⟨by omega, ?_, trivial⟩
    rw [Nat.max_assoc, Nat.max_eq_right (by omega : c + 1 ≤ c + 1 + as.length)]
    congr 1
    omega

theorem fuzzyLoop_bounds (t : Str) : ∀ (p : Str) (m c mx : Nat),
    (fuzzyLoop t p m c mx).1 ≤ m + p.length ∧
    (fuzzyLoop t p m c mx).2.1 ≤ max mx (c + p.length) := by
  induction t with
  | nil =>
    intro p m c mx
    cases p with
    | nil => simp [fuzzyLoop]
    | cons q qs => simp [fuzzyLoop]
  | cons a ts ih =>
    intro p m c mx
    cases p with
    | nil => simp [fuzzyLoop]
    | cons q qs =>
      by_cases h : a = q
      · rw [show fuzzyLoop (a :: ts) (q :: qs) m c mx
            = fuzzyLoop ts qs (m + 1) (c + 1) (max mx (c + 1)) by simp [fuzzyLoop, h]]
        obtain ⟨h1, h2⟩ := ih qs (m + 1) (c + 1) (max mx (c + 1))
        constructor
        · refine h1.trans ?_
          simp only [List.length_cons]
          omega
        · refine h2.trans ?_
          simp only [List.length_cons]
          omega
      · rw [show fuzzyLoop (a :: ts) (q :: qs) m c mx
            = fuzzyLoop ts (q :: qs) m 0 mx by simp [fuzzyLoop, h]]
        obtain ⟨h1, h2⟩ := ih (q :: qs) m 0 mx
        refine ⟨h1, h2.trans ?_⟩
        omega

theorem fuzzyMatch_isMatch_iff (t p : Str) :
    (fuzzyMatch t p).isMatch = true ↔ p.Sublist t := by
  by_cases h : p.length = 0
  · have hp : p = [] := List.length_eq_zero.1 h
    subst hp
    simp [fuzzyMatch, List.nil_sublist]
  · simp only [fuzzyMatch, if_neg h, patternLeft, decide_eq_true_eq]
    exact fuzzyLoop_left_eq_zero_iff t p 0 0 0

theorem fuzzyMatch_self (s : Str) :
    fuzzyMatch s s = { isMatch := true, score := 1 } := by
  by_cases h : s.length = 0
  · have hs : s = [] := List.length_eq_zero.1 h
    subst hs
    simp [fuzzyMatch]
  · have hl := fuzzyLoop_self s 0 0 0 (Nat.le_refl 0)
    have hL : ((s.length : ℚ)) ≠ 0 := Nat.cast_ne_zero.2 h
    simp only [fuzzyMatch, if_neg h, patternLeft, matchedChars, longestRun, hl]
    simp only [Nat.zero_add, Nat.max_eq_right (Nat.zero_le _), FMatch.mk.injEq,
      decide_eq_true_eq, div_self hL]
    norm_num

theorem fuzzyMatch_score_le_one (t p : Str) : (fuzzyMatch t p).score ≤ 1 := by
  by_cases h : p.length = 0
  · simp [fuzzyMatch, h]
  · have hpos : (0 : ℚ) < p.length := by
      exact_mod_cast Nat.pos_of_ne_zero h
    obtain ⟨h1, h2⟩ := fuzzyLoop_bounds t p 0 0 0
    have h1' : (fuzzyLoop t p 0 0 0).1 ≤ p.length := by simpa using h1
    have h2' : (fuzzyLoop t p 0 0 0).2.1 ≤ p.length := by simpa using h2
    simp only [fuzzyMatch, if_neg h, matchedChars, longestRun]
    have e1 : ((fuzzyLoop t p 0 0 0).1 : ℚ) / p.length ≤ 1 :=
      (div_le_one hpos).2 (by exact_mod_cast h1')
    have e2 : ((fuzzyLoop t p 0 0 0).2.1 : ℚ) / p.length ≤ 1 :=
      (div_le_one hpos).2 (by exact_mod_cast h2')
    linarith

theorem fuzzyMatch_score_nonneg (t p : Str) : 0 ≤ (fuzzyMatch t p).score := by
  by_cases h : p.length = 0
  · simp [fuzzyMatch, h]
  · simp only [fuzzyMatch, if_neg h]
    have hpos : (0 : ℚ) ≤ p.length := by positivity
    positivity


/-! ## Lemmas about the stable sort -/

theorem insertDesc_perm (x : ScoredItem) (l : List ScoredItem) :
    (insertDesc x l).Perm (x :: l) := by
  induction l with
  | nil => simp [insertDesc]
  | cons y ys ih =>
    by_cases h : y.score ≤ x.score
    · simp [insertDesc, h]
    · simp only [insertDesc, if_neg h]
      exact (ih.cons y).trans (List.Perm.swap x y ys)

theorem sortDesc_perm (l : List ScoredItem) : (sortDesc l).Perm l := by
  induction l with
  | nil => simp [sortDesc]
  | cons a as ih =>
    have : sortDesc (a :: as) = insertDesc a (sortDesc as) := rfl
    rw [this]
    exact (insertDesc_perm a (sortDesc as)).trans (ih.cons a)

theorem insertDesc_pairwise {x : ScoredItem} {l : List ScoredItem}
    (h : List.Pairwise (fun a b => b.score ≤ a.score) l) :
    List.Pairwise (fun a b => b.score ≤ a.score) (insertDesc x l) := by
  induction l with
  | nil => simp [insertDesc]
  | cons y ys ih =>
    rw [List.pairwise_cons] at h
    obtain ⟨hy, hys⟩ := h
    by_cases hc : y.score ≤ x.score
    · have h1 : insertDesc x (y :: ys) = x :: y :: ys := by simp [insertDesc, hc]
      rw [h1, List.pairwise_cons]
      refine ⟨?_, List.pairwise_cons.2 ⟨hy, hys⟩⟩
      intro z hz
      rcases List.mem_cons.1 hz with rfl | hz'
      · exact hc
      · exact (hy z hz').trans hc
    · have h1 : insertDesc x (y :: ys) = y :: insertDesc x ys := by
        simp [insertDesc, hc]
      rw [h1, List.pairwise_cons]
      refine ⟨?_, ih hys⟩
      intro z hz
      have hz2 : z = x ∨ z ∈ ys := by
        have := (insertDesc_perm x ys).mem_iff.1 hz
        simpa using this
      rcases hz2 with rfl | hz'
      · exact le_of_lt (not_le.1 hc)
      · exact hy z hz'

theorem sortDesc_pairwise (l : List ScoredItem) :
    List.Pairwise (fun a b => b.score ≤ a.score) (sortDesc l) := by
  induction l with
  | nil => simp [sortDesc]
  | cons a as ih => exact insertDesc_pairwise ih

theorem insertDesc_filter (x : ScoredItem) (l : List ScoredItem) (s : ℚ) :
    (insertDesc x l).filter (fun e => decide (e.score = s)) =
      if x.score = s then x :: l.filter (fun e => decide (e.score = s))
      else l.filter (fun e => decide (e.score = s)) := by
  induction l with
  | nil =>
    by_cases hx : x.score = s <;> simp [insertDesc, List.filter, hx]
  | cons y ys ih =>
    by_cases hc : y.score ≤ x.score
    · have h1 : insertDesc x (y :: ys) = x :: y :: ys := by simp [insertDesc, hc]
      rw [h1]
      by_cases hx : x.score = s
      · rw [List.filter_cons_of_pos (by simp [hx]), if_pos hx]
      · rw [List.filter_cons_of_neg (by simp [hx]), if_neg hx]
    · have h1 : insertDesc x (y :: ys) = y :: insertDesc x ys := by
        simp [insertDesc, hc]
      rw [h1]
      have hlt : x.score < y.score := not_le.1 hc
      by_cases hy : y.score = s
      · have hx : ¬ x.score = s := by
          intro hxx
          rw [hxx, hy] at hlt
          exact lt_irrefl s hlt
        rw [List.filter_cons_of_pos (by simp [hy]), ih, if_neg hx, if_neg hx,
          List.filter_cons_of_pos (by simp [hy])]
      · by_cases hx : x.score = s
        · rw [List.filter_cons_of_neg (by simp [hy]), ih, if_pos hx, if_pos hx,
            List.filter_cons_of_neg (by simp [hy])]
        · rw [List.filter_cons_of_neg (by simp [hy]), ih, if_neg hx, if_neg hx,
            List.filter_cons_of_neg (by simp [hy])]

theorem sortDesc_filter (l : List ScoredItem) (s : ℚ) :
    (sortDesc l).filter (fun e => decide (e.score = s)) =
      l.filter (fun e => decide (e.score = s)) := by
  induction l with
  | nil => simp [sortDesc]
  | cons a as ih =>
    have h1 : sortDesc (a :: as) = insertDesc a (sortDesc as) := rfl
    rw [h1, insertDesc_filter]
    by_cases hx : a.score = s <;> simp [List.filter_cons, hx, ih]

theorem mem_scoreEntries {files : List FileItem} {options : FilterOptions}
    {e : ScoredItem} (h : e ∈ scoreEntries files options) :
    e.item ∈ files ∧ e.score = scoreOf options e.item ∧ 0 < e.score := by
  simp only [scoreEntries, List.mem_filterMap] at h
  obtain ⟨a, ha, he⟩ := h
  by_cases hp : 0 < scoreOf options a
  · rw [if_pos hp] at he
    cases he
    exact ⟨ha, rfl, hp⟩
  · rw [if_neg hp] at he
    cases he

theorem scoreEntries_filter_map_sublist (files : List FileItem)
    (options : FilterOptions) (s : ℚ) :
    (((scoreEntries files options).filter
        (fun e => decide (e.score = s))).map ScoredItem.item).Sublist
      (files.filter fun f => decide (scoreOf options f = s)) := by
  induction files with
  | nil => simp [scoreEntries]
  | cons f fs ih =>
    by_cases hp : 0 < scoreOf options f
    · have h1 : scoreEntries (f :: fs) options =
          { item := f, score := scoreOf options f } :: scoreEntries fs options := by
        simp [scoreEntries, List.filterMap_cons, hp]
      rw [h1]
      by_cases hs : scoreOf options f = s
      · simpa [List.filter_cons, hs] using ih.cons₂ f
      · simpa [List.filter_cons, hs] using ih
    · have h1 : scoreEntries (f :: fs) options = scoreEntries fs options := by
        simp [scoreEntries, List.filterMap_cons, hp]
      rw [h1]
      by_cases hs : scoreOf options f = s
      · simpa [List.filter_cons, hs] using ih.cons f
      · simpa [List.filter_cons, hs] using ih

theorem mem_applyAdvanced_pos {files : List FileItem} {options : FilterOptions}
    {f : FileItem} (ht : jsTrim options.pattern ≠ [])
    (hf : f ∈ applyAdvanced files options) : 0 < scoreOf options f := by
  rw [applyAdvanced, if_neg ht] at hf
  obtain ⟨e, he, rfl⟩ := List.mem_map.1 hf
  have h1 : e ∈ sortDesc (scoreEntries files options) := List.mem_of_mem_take he
  have h2 : e ∈ scoreEntries files options :=
    (sortDesc_perm (scoreEntries files options)).mem_iff.1 h1
  obtain ⟨-, hs, hpos⟩ := mem_scoreEntries h2
  rwa [hs] at hpos


/-! ## Claims C4 and C9: the fuzzy scorer and its ranking -/

/-- C4: for every target and non-empty query, the fuzzy subsequence scorer
succeeds exactly when the query is a subsequence of the target (the
left-to-right scan advances the query pointer on equal characters), its
score is `matchedChars/queryLength * 0.7 + longestRun/queryLength * 0.3`,
and every record whose total fuzzy score is 0 is excluded from the ranked
result of the advanced fuzzy pass. -/
theorem fuzzy_subsequence_scorer_C4 :
    (∀ text pattern : Str, pattern ≠ [] →
      ((fuzzyMatch text pattern).isMatch = true ↔ pattern.Sublist text) ∧
      (fuzzyMatch text pattern).score =
        (matchedChars text pattern : ℚ) / pattern.length * (7 / 10) +
        (longestRun text pattern : ℚ) / pattern.length * (3 / 10)) ∧
    ∀ (files : List FileItem) (opts : FilterOptions) (f : FileItem),
      jsTrim opts.pattern ≠ [] → scoreOf opts f = 0 →
        f ∉ applyAdvanced files opts := by
  constructor
  · intro text pattern hp
    have hl : pattern.length ≠ 0 := by
      intro h
      exact hp (List.length_eq_zero.1 h)
    refine ⟨fuzzyMatch_isMatch_iff text pattern, ?_⟩
    rw [fuzzyMatch, if_neg hl]
  · intro files opts f ht h0 hf
    have := mem_applyAdvanced_pos ht hf
    rw [h0] at this
    exact lt_irrefl 0 this

/-- Witness for C4 at concrete inputs: query `b` against target `ab` is a
matching subsequence, and the zero-scoring record `a.ts` is excluded from
the ranked result for query `zzz`. -/
theorem fuzzy_subsequence_scorer_C4_witness :
    ((fuzzyMatch (str "ab") (str "b")).isMatch = true ↔
      (str "b").Sublist (str "ab")) ∧
    gA ∉ applyAdvanced [gA] c4Opts :=
  ⟨(fuzzy_subsequence_scorer_C4.1 (str "ab") (str "b") (by decide)).1,
   fuzzy_subsequence_scorer_C4.2 [gA] c4Opts gA (by decide)
     (by simp +decide only [scoreOf, c4Opts, gA, calculateFuzzyScore, caseFold, tierExact, tierStarts, tierContains, tierFuzzy, fuzzyMatch,
           patternLeft, matchedChars, longestRun, fuzzyLoop, lower, str,
           strIncludes, List.isPrefixOf, List.map, List.length]
         norm_num)⟩

/-- C9 (amended): the ranked output of the advanced fuzzy pass is sorted by
score descending, and records with equal scores keep their input order (the
sort is stable) — there is no path-length or lexical tiebreak. -/
theorem fuzzy_rank_order_C9 :
    ∀ (files : List FileItem) (opts : FilterOptions), jsTrim opts.pattern ≠ [] →
      List.Pairwise (fun a b => scoreOf opts b ≤ scoreOf opts a)
        (applyAdvanced files opts) ∧
      ∀ s : ℚ, ((applyAdvanced files opts).filter
          fun f => decide (scoreOf opts f = s)).Sublist
        (files.filter fun f => decide (scoreOf opts f = s)) := by
  intro files opts ht
  have happ : applyAdvanced files opts =
      ((sortDesc (scoreEntries files opts)).take opts.maxResults).map
        ScoredItem.item := by
    rw [applyAdvanced, if_neg ht]
  constructor
  · rw [happ, List.pairwise_map]
    have hpw : List.Pairwise (fun a b : ScoredItem => b.score ≤ a.score)
        ((sortDesc (scoreEntries files opts)).take opts.maxResults) :=
      (sortDesc_pairwise _).sublist (List.take_sublist _ _)
    refine hpw.imp_of_mem ?_
    intro a b ha hb hr
    have ha' := mem_scoreEntries ((sortDesc_perm _).mem_iff.1
      (List.mem_of_mem_take ha))
    have hb' := mem_scoreEntries ((sortDesc_perm _).mem_iff.1
      (List.mem_of_mem_take hb))
    rw [← ha'.2.1, ← hb'.2.1]
    exact hr
  · intro s
    rw [happ, List.filter_map]
    have hcongr : ((sortDesc (scoreEntries files opts)).take
          opts.maxResults).filter
        ((fun f => decide (scoreOf opts f = s)) ∘ ScoredItem.item) =
        ((sortDesc (scoreEntries files opts)).take opts.maxResults).filter
          (fun e => decide (e.score = s)) := by
      apply List.filter_congr
      intro e he
      have he' := mem_scoreEntries ((sortDesc_perm _).mem_iff.1
        (List.mem_of_mem_take he))
      simp only [Function.comp]
      rw [he'.2.1]
    rw [hcongr]
    have h1 : (((sortDesc (scoreEntries files opts)).take
          opts.maxResults).filter (fun e => decide (e.score = s))).Sublist
        ((scoreEntries files opts).filter (fun e => decide (e.score = s))) := by
      have := List.Sublist.filter (fun e : ScoredItem => decide (e.score = s))
        (List.take_sublist opts.maxResults (sortDesc (scoreEntries files opts)))
      rwa [sortDesc_filter] at this
    exact (h1.map ScoredItem.item).trans
      (scoreEntries_filter_map_sublist files opts s)

/-- Witness for C9 at a concrete input. -/
theorem fuzzy_rank_order_C9_witness :
    List.Pairwise (fun a b => scoreOf c9Opts b ≤ scoreOf c9Opts a)
      (applyAdvanced [c9A, c9B] c9Opts) ∧
    ∀ s : ℚ, ((applyAdvanced [c9A, c9B] c9Opts).filter
        fun f => decide (scoreOf c9Opts f = s)).Sublist
      ([c9A, c9B].filter fun f => decide (scoreOf c9Opts f = s)) :=
  fuzzy_rank_order_C9 [c9A, c9B] c9Opts (by decide)

/-- Counterexample to C9 as stated: records `b/q` and `a/q` (equal scores,
equal path lengths, `a/q` lexically first) keep their input order
`[b/q, a/q]` in the ranked output — the claimed shorter-path/lexical
tiebreak would demand `[a/q, b/q]`. -/
theorem fuzzy_rank_order_C9_cex :
    applyAdvanced [c9A, c9B] c9Opts = [c9A, c9B] ∧
    scoreOf c9Opts c9A = scoreOf c9Opts c9B ∧
    c9A.relativePath.length = c9B.relativePath.length ∧
    c9A.relativePath.head? = some 'b' ∧
    c9B.relativePath.head? = some 'a' ∧
    'a' < 'b' ∧
    applyAdvanced [c9A, c9B] c9Opts ≠ [c9B, c9A] := by
  have h : applyAdvanced [c9A, c9B] c9Opts = [c9A, c9B] := by
    simp +decide only [applyAdvanced, jsTrim, c9Opts, c9A, c9B, sortDesc,
      insertDesc, scoreEntries, scoreOf, calculateFuzzyScore, caseFold, tierExact, tierStarts, tierContains, tierFuzzy, fuzzyMatch,
      patternLeft, matchedChars, longestRun, fuzzyLoop, lower, str,
      strIncludes, List.isPrefixOf, List.filterMap_cons, isWS, List.map,
      List.dropWhile, List.reverse_nil, List.reverse_cons, List.filterMap_nil,
      List.foldr, List.length, List.append_nil, List.nil_append]
    norm_num [insertDesc]
  refine ⟨h, ?_, by decide, by decide, by decide, by decide, ?_⟩
  · simp +decide only [scoreOf, c9Opts, c9A, c9B, calculateFuzzyScore, caseFold,
      tierExact, tierStarts, tierContains, tierFuzzy, fuzzyMatch, patternLeft, matchedChars, longestRun, fuzzyLoop, lower,
      str, strIncludes, List.isPrefixOf, List.map, List.length]
  · rw [h]
    decide


/-! ## Claim C10: tier bounds for the custom fuzzy scorer -/

theorem calculateFuzzyScore_exact (fileName relativePath pattern : Str)
    (cs : Bool) (h : caseFold cs fileName = caseFold cs pattern) :
    calculateFuzzyScore fileName relativePath pattern cs =
      280 + max 0 (1 - (relativePath.length : ℚ) / 100) * 10 := by
  simp only [calculateFuzzyScore, h]
  have e1 : tierExact (caseFold cs pattern) (caseFold cs relativePath)
      (caseFold cs pattern) = 100 := by simp [tierExact]
  have e2 : tierStarts (caseFold cs pattern) (caseFold cs relativePath)
      (caseFold cs pattern) = 80 := by simp [tierStarts, isPrefixOf_refl]
  have e3 : tierContains (caseFold cs pattern) (caseFold cs relativePath)
      (caseFold cs pattern) = 60 := by simp [tierContains, strIncludes_refl]
  have e4 : tierFuzzy (caseFold cs pattern) (caseFold cs relativePath)
      (caseFold cs pattern) = 40 := by simp [tierFuzzy, fuzzyMatch_self]
  rw [e1, e2, e3, e4]
  norm_num

theorem lengthBonus_bounds (relativePath : Str) :
    0 ≤ max 0 (1 - (relativePath.length : ℚ) / 100) * 10 ∧
    max 0 (1 - (relativePath.length : ℚ) / 100) * 10 ≤ 10 := by
  constructor
  · have : (0 : ℚ) ≤ max 0 (1 - (relativePath.length : ℚ) / 100) :=
      le_max_left 0 _
    linarith
  · have h1 : (1 - (relativePath.length : ℚ) / 100) ≤ 1 := by
      have : (0 : ℚ) ≤ (relativePath.length : ℚ) := by positivity
      have : (0 : ℚ) ≤ (relativePath.length : ℚ) / 100 := by positivity
      linarith
    have h2 : max 0 (1 - (relativePath.length : ℚ) / 100) ≤ 1 :=
      max_le (by norm_num) h1
    linarith

theorem calculateFuzzyScore_contains_le (fileName relativePath pattern : Str)
    (cs : Bool) (hne : caseFold cs fileName ≠ caseFold cs pattern)
    (hnp : (caseFold cs pattern).isPrefixOf (caseFold cs fileName) = false) :
    calculateFuzzyScore fileName relativePath pattern cs ≤ 270 := by
  simp only [calculateFuzzyScore]
  have e1 : tierExact (caseFold cs fileName) (caseFold cs relativePath)
      (caseFold cs pattern) ≤ 90 := by
    unfold tierExact
    split_ifs with h1 h2
    · exact absurd h1 hne
    · norm_num
    · norm_num
  have e2 : tierStarts (caseFold cs fileName) (caseFold cs relativePath)
      (caseFold cs pattern) ≤ 70 := by
    unfold tierStarts
    split_ifs with h1 h2
    · rw [h1] at hnp; cases hnp
    · norm_num
    · norm_num
  have e3 : tierContains (caseFold cs fileName) (caseFold cs relativePath)
      (caseFold cs pattern) ≤ 60 := by
    unfold tierContains
    split_ifs <;> norm_num
  have e4 : tierFuzzy (caseFold cs fileName) (caseFold cs relativePath)
      (caseFold cs pattern) ≤ 40 := by
    unfold tierFuzzy
    split_ifs
    · linarith [fuzzyMatch_score_le_one (caseFold cs fileName)
        (caseFold cs pattern)]
    · linarith [fuzzyMatch_score_le_one (caseFold cs relativePath)
        (caseFold cs pattern)]
    · norm_num
  obtain ⟨hb0, hb10⟩ := lengthBonus_bounds relativePath
  split_ifs with hpos
  · linarith
  · linarith

/-- C10 (amended): the tiers of the custom fuzzy scorer are additive — a
record whose case-folded name equals the query receives the exact (+100),
starts-with (+80), contains (+60) and full-subsequence (+40) bonuses, i.e.
exactly 280 plus the length bonus, hence at least 280 — and it scores
strictly higher than any record whose name merely contains the query
(neither equals it nor starts with it), whose score is at most
90 + 70 + 60 + 40 + 10 = 270 (not 110 as claimed: path-based tier
fallbacks can still fire for such a record). -/
theorem fuzzy_exact_tiers_C10 :
    ∀ (nameA pathA nameB pathB q : Str) (cs : Bool),
      caseFold cs nameA = caseFold cs q →
      caseFold cs nameB ≠ caseFold cs q →
      (caseFold cs q).isPrefixOf (caseFold cs nameB) = false →
      strIncludes (caseFold cs q) (caseFold cs nameB) = true →
      calculateFuzzyScore nameA pathA q cs =
        280 + max 0 (1 - (pathA.length : ℚ) / 100) * 10 ∧
      280 ≤ calculateFuzzyScore nameA pathA q cs ∧
      calculateFuzzyScore nameB pathB q cs ≤ 270 ∧
      calculateFuzzyScore nameB pathB q cs <
        calculateFuzzyScore nameA pathA q cs := by
  intro nameA pathA nameB pathB q cs hA hBne hBnp _hBinc
  have hAeq := calculateFuzzyScore_exact nameA pathA q cs hA
  have hAge : 280 ≤ calculateFuzzyScore nameA pathA q cs := by
    obtain ⟨hb0, -⟩ := lengthBonus_bounds pathA
    rw [hAeq]
    linarith
  have hBle := calculateFuzzyScore_contains_le nameB pathB q cs hBne hBnp
  exact ⟨hAeq, hAge, hBle, by linarith⟩

/-- Witness for C10 at concrete inputs: query `ab`, exact record
`ab`, merely-containing record `xaby` (path `ab/xaby`). -/
theorem fuzzy_exact_tiers_C10_witness :
    280 ≤ calculateFuzzyScore (str "ab") (str "ab") (str "ab") false ∧
    calculateFuzzyScore (str "xaby") (str "ab/xaby") (str "ab") false <
      calculateFuzzyScore (str "ab") (str "ab") (str "ab") false :=
  ⟨(fuzzy_exact_tiers_C10 (str "ab") (str "ab") (str "xaby") (str "ab/xaby")
      (str "ab") false (by decide) (by decide) (by decide) (by decide)).2.1,
   (fuzzy_exact_tiers_C10 (str "ab") (str "ab") (str "xaby") (str "ab/xaby")
      (str "ab") false (by decide) (by decide) (by decide) (by decide)).2.2.2⟩

/-- Counterexample to C10's claimed 110 bound: the record named `xaby` with
path `ab/xaby` merely contains the query `ab` (not equal, not a leading
match), yet scores 179.3 — its path starts with the query, so the +70 path
fallback of the starts-with tier fires. -/
theorem fuzzy_exact_tiers_C10_cex :
    caseFold false (str "xaby") ≠ caseFold false (str "ab") ∧
    (caseFold false (str "ab")).isPrefixOf (caseFold false (str "xaby")) =
      false ∧
    strIncludes (caseFold false (str "ab")) (caseFold false (str "xaby")) =
      true ∧
    calculateFuzzyScore (str "xaby") (str "ab/xaby") (str "ab") false =
      1793 / 10 ∧
    (110 : ℚ) < 1793 / 10 := by
  refine ⟨by decide, by decide, by decide, ?_, by norm_num⟩
  simp +decide only [calculateFuzzyScore, caseFold, tierExact, tierStarts,
    tierContains, tierFuzzy, fuzzyMatch, patternLeft, matchedChars,
    longestRun, fuzzyLoop, lower, str, strIncludes, List.isPrefixOf,
    List.map, List.length]
  norm_num


/-! ## Claims C1 and C6: the orchestrator -/

/-- C1: for every mode (including an arbitrary fuzzy matcher that need not
cap), every input list and options, the orchestrator's filter pass returns
at most `maxResults` records — the cap is applied as a uniform safety net
by the final slice. -/
theorem maxResults_cap_C1 :
    ∀ (fuzzyApply : List FileItem → FilterOptions → List FileItem)
      (test : JSRegex → Str → Bool) (elapsed : JSRegex → Str → Nat)
      (files : List FileItem) (opts : FilterOptions),
      (applyCurrentFilter fuzzyApply test elapsed files opts).length ≤
        opts.maxResults := by
  intro fuzzyApply test elapsed files opts
  rw [applyCurrentFilter]
  split_ifs
  · exact List.length_take_le _ _
  · exact List.length_take_le _ _

/-- C6: for every mode, a blank pattern short-circuits the filter pass to
the full input in original order, truncated only by `maxResults` (and
returned whole when it already fits the cap). -/
theorem empty_pattern_identity_C6 :
    ∀ (fuzzyApply : List FileItem → FilterOptions → List FileItem)
      (test : JSRegex → Str → Bool) (elapsed : JSRegex → Str → Nat)
      (files : List FileItem) (opts : FilterOptions), opts.pattern = [] →
      applyCurrentFilter fuzzyApply test elapsed files opts =
        files.take opts.maxResults ∧
      (files.length ≤ opts.maxResults →
        applyCurrentFilter fuzzyApply test elapsed files opts = files) := by
  intro fuzzyApply test elapsed files opts h
  have ht : jsTrim opts.pattern = [] := by rw [h]; rfl
  rw [applyCurrentFilter, if_pos ht]
  exact ⟨rfl, fun hle => List.take_of_length_le hle⟩

/-- Witness for C6 at a concrete input. -/
theorem empty_pattern_identity_C6_witness :
    applyCurrentFilter (fun fs _ => fs) (fun _ _ => true) (fun _ _ => 0)
      [gA, gB] c6Opts = [gA, gB] :=
  (empty_pattern_identity_C6 (fun fs _ => fs) (fun _ _ => true) (fun _ _ => 0)
    [gA, gB] c6Opts rfl).2 (by decide)

/-! ## Claim C2: glob include/exclude semantics -/

theorem splitOnChar_ne_nil (sep : Char) (s : Str) : splitOnChar sep s ≠ [] := by
  cases s with
  | nil => simp [splitOnChar]
  | cons x xs =>
    rw [splitOnChar]
    split_ifs
    · simp
    · cases h : splitOnChar sep xs <;> simp

theorem mem_splitOnChar_mem (sep : Char) :
    ∀ (s piece : Str), piece ∈ splitOnChar sep s → ∀ c ∈ piece, c ∈ s := by
  intro s
  induction s with
  | nil =>
    intro piece hp c hc
    simp [splitOnChar] at hp
    subst hp
    cases hc
  | cons x xs ih =>
    intro piece hp c hc
    rw [splitOnChar] at hp
    by_cases hx : x = sep
    · rw [if_pos hx] at hp
      rcases List.mem_cons.1 hp with rfl | hp'
      · cases hc
      · exact List.mem_cons_of_mem x (ih piece hp' c hc)
    · rw [if_neg hx] at hp
      cases hr : splitOnChar sep xs with
      | nil => exact absurd hr (splitOnChar_ne_nil sep xs)
      | cons h t =>
        rw [hr] at hp
        rcases List.mem_cons.1 hp with rfl | hp'
        · rcases List.mem_cons.1 hc with rfl | hc'
          · exact List.mem_cons_self c xs
          · exact List.mem_cons_of_mem x (ih h (by rw [hr]; exact List.mem_cons_self h t) c hc')
        · exact List.mem_cons_of_mem x
            (ih piece (by rw [hr]; exact List.mem_cons_of_mem h hp') c hc)

theorem jsTrim_eq_nil_iff (s : Str) :
    jsTrim s = [] ↔ ∀ c ∈ s, isWS c = true := by
  rw [jsTrim, List.reverse_eq_nil_iff, List.dropWhile_eq_nil_iff]
  constructor
  · intro h c hc
    have hsplit := List.takeWhile_append_dropWhile (p := isWS) (l := s)
    rw [← hsplit] at hc
    rcases List.mem_append.1 hc with h1 | h1
    · exact List.mem_takeWhile_imp h1
    · exact h c (List.mem_reverse.2 h1)
  · intro h c hc
    exact h c ((List.dropWhile_sublist _).subset (List.mem_reverse.1 hc))

theorem parsePatterns_blank {s : Str} (h : jsTrim s = []) :
    GlobFilter.parsePatterns s = ([], []) := by
  have hall : ((splitOnChar ',' s).map jsTrim).filter (· ≠ []) = [] := by
    rw [List.filter_eq_nil_iff]
    intro piece hpiece
    obtain ⟨q, hq, rfl⟩ := List.mem_map.1 hpiece
    have : ∀ c ∈ q, isWS c = true := fun c hc =>
      (jsTrim_eq_nil_iff s).1 h c (mem_splitOnChar_mem ',' s q hq c hc)
    simp [(jsTrim_eq_nil_iff q).2 this]
  rw [GlobFilter.parsePatterns]
  rw [hall]
  simp

/-- C2: a record survives `GlobFilter.apply` exactly when (there are no
inclusion sub-patterns, or its `relativePath` matches one of them) and it
matches no exclusion sub-pattern (comma-separated, `!`-led sub-patterns are
exclusions); concretely, for files `[a.ts, a.spec.ts]` and pattern
`"!*.spec.ts"` the result is `[a.ts]`. -/
theorem glob_include_exclude_C2 :
    (∀ (files : List FileItem) (opts : FilterOptions) (f : FileItem),
      f ∈ GlobFilter.apply files opts ↔
        f ∈ files ∧
        ((GlobFilter.parsePatterns opts.pattern).1 = [] ∨
          ∃ p ∈ (GlobFilter.parsePatterns opts.pattern).1,
            minimatchModel f.relativePath p (!opts.caseSensitive) = true) ∧
        ¬ ∃ p ∈ (GlobFilter.parsePatterns opts.pattern).2,
            minimatchModel f.relativePath p (!opts.caseSensitive) = true) ∧
    GlobFilter.apply [gA, gB] gOpts = [gA] := by
  constructor
  · intro files opts f
    by_cases ht : jsTrim opts.pattern = []
    · rw [GlobFilter.apply, if_pos ht, parsePatterns_blank ht]
      simp
    · rw [GlobFilter.apply, if_neg ht, List.mem_filter]
      constructor
      · rintro ⟨hmem, hb⟩
        rw [Bool.and_eq_true, Bool.not_eq_true'] at hb
        obtain ⟨h1, h2⟩ := hb
        rw [Bool.or_eq_true] at h1
        refine ⟨hmem, ?_, ?_⟩
        · rcases h1 with h1 | h1
          · exact Or.inl (List.isEmpty_iff.1 h1)
          · exact Or.inr (List.any_eq_true.1 h1)
        · intro hex
          have := List.any_eq_true.2 hex
          rw [h2] at this
          cases this
      · rintro ⟨hmem, hinc, hexc⟩
        refine ⟨hmem, ?_⟩
        rw [Bool.and_eq_true, Bool.not_eq_true']
        constructor
        · rw [Bool.or_eq_true]
          rcases hinc with h | h
          · exact Or.inl (List.isEmpty_iff.2 h)
          · exact Or.inr (List.any_eq_true.2 h)
        · cases hany : (GlobFilter.parsePatterns opts.pattern).2.any fun p =>
              minimatchModel f.relativePath p !opts.caseSensitive
          · rfl
          · exact absurd (List.any_eq_true.1 hany) hexc
  · decide


/-! ## Claim C3: cumulative ignore verdict -/

theorem matchesIgnoreGo_eq (filePath : Str) :
    ∀ (patterns : List IgnorePattern) (acc v : Bool),
      matchesIgnoreGo filePath patterns acc = some v →
      v = (match (patterns.filter fun p =>
            matchesPatternE filePath p.pattern = some true).getLast? with
          | none => acc
          | some p => !p.negated) := by
  intro patterns
  induction patterns with
  | nil =>
    intro acc v h
    simp only [matchesIgnoreGo, Option.some.injEq] at h
    simp [← h]
  | cons p rest ih =>
    intro acc v h
    rw [matchesIgnoreGo] at h
    cases hm : matchesPatternE filePath p.pattern with
    | none => rw [hm] at h; cases h
    | some b =>
      rw [hm] at h
      cases b with
      | false =>
        have hv := ih acc v h
        rw [List.filter_cons_of_neg (by simp [hm])]
        exact hv
      | true =>
        have hv := ih (!p.negated) v h
        rw [List.filter_cons_of_pos (by simp [hm])]
        cases hfr : rest.filter fun q =>
            decide (matchesPatternE filePath q.pattern = some true) with
        | nil =>
          rw [hfr] at hv
          simpa using hv
        | cons q qs =>
          rw [hfr] at hv
          rw [List.getLast?_cons_cons]
          exact hv

/-- C3: the ignored verdict is cumulative — iterated in file order, each
matching pattern overwrites `ignored` with the negation of its `negated`
flag, so (when no pattern throws) the verdict equals the verdict of the
last matching pattern, `false` when none matches (not an OR of all
patterns); concretely, with patterns `["build/", "!build/keep.txt"]` the
path `build/keep.txt` is not ignored and `build/other.txt` is ignored. -/
theorem ignore_cumulative_C3 :
    (∀ (filePath : Str) (patterns : List IgnorePattern) (v : Bool),
      matchesIgnorePattern filePath patterns = some v →
      v = (match (patterns.filter fun p =>
            matchesPatternE filePath p.pattern = some true).getLast? with
          | none => false
          | some p => !p.negated)) ∧
    matchesIgnorePattern (str "build/keep.txt")
      [⟨str "build/", [], false⟩, ⟨str "build/keep.txt", [], true⟩] =
      some false ∧
    matchesIgnorePattern (str "build/other.txt")
      [⟨str "build/", [], false⟩, ⟨str "build/keep.txt", [], true⟩] =
      some true := by
  refine ⟨?_, by decide, by decide⟩
  intro filePath patterns v h
  exact matchesIgnoreGo_eq filePath patterns false v h

/-- Witness for C3: the cumulative characterisation applied to the concrete
negation example. -/
theorem ignore_cumulative_C3_witness :
    (false : Bool) =
      (match ([(⟨str "build/", [], false⟩ : IgnorePattern),
          ⟨str "build/keep.txt", [], true⟩].filter fun p =>
            matchesPatternE (str "build/keep.txt") p.pattern =
              some true).getLast? with
        | none => false
        | some p => !p.negated) :=
  ignore_cumulative_C3.1 (str "build/keep.txt")
    [⟨str "build/", [], false⟩, ⟨str "build/keep.txt", [], true⟩] false
    (by decide)

/-! ## Claim C8: directory ignore patterns -/

/-- Counterexample to C8 as stated: for pattern `build/` and path `build`,
the claim's disjunction holds (the path equals the pattern minus its
trailing slash) but the source's prefix test rejects it — the bare
directory path itself does not match. -/
theorem dir_pattern_C8_cex :
    dirPatternSpec (str "build") (str "build/") = true ∧
    matchesPatternE (str "build") (str "build/") = some false := by
  decide

/-- C8 (amended): an ignore pattern ending in `/` matches exactly the paths
that start with the pattern itself — i.e. the paths strictly under the
directory; the bare directory path (pattern minus its trailing slash) does
not match. -/
theorem dir_pattern_C8 :
    ∀ (filePath pattern : Str), pattern.getLast? = some '/' →
      (matchesPatternE filePath pattern = some true ↔
        ∃ rest, filePath = pattern.dropLast ++ '/' :: rest) := by
  intro filePath pattern h
  rw [matchesPatternE, if_pos h]
  rw [Option.some.injEq]
  constructor
  · intro hb
    obtain ⟨t, ht⟩ := (isPrefixOf_iff_append _ _).1 hb
    exact ⟨t, by simpa [List.append_assoc] using ht⟩
  · rintro ⟨rest, rfl⟩
    exact (isPrefixOf_iff_append _ _).2 ⟨rest, by simp [List.append_assoc]⟩

/-- Witness for C8 at a concrete input: `build/x` lies under `build/`. -/
theorem dir_pattern_C8_witness :
    matchesPatternE (str "build/x") (str "build/") = some true ↔
      ∃ rest, str "build/x" = (str "build/").dropLast ++ '/' :: rest :=
  dir_pattern_C8 (str "build/x") (str "build/") (by decide)


/-! ## Claim C5: invalid regex fails soft -/

theorem reCheck_ws : ∀ (fuel : Nat) (cs : Str) (prev : RState),
    cs.length < fuel → (∀ c ∈ cs, isWS c = true) →
    reCheck fuel cs 0 prev = true := by
  intro fuel
  induction fuel with
  | zero => intro cs prev h _; exact absurd h (Nat.not_lt_zero _)
  | succ n ih =>
    intro cs prev hlen hws
    cases cs with
    | nil => simp [reCheck]
    | cons c rest =>
      have hc := hws c (List.mem_cons_self c rest)
      have hrest : ∀ x ∈ rest, isWS x = true := fun x hx =>
        hws x (List.mem_cons_of_mem c hx)
      have hlen' : rest.length < n := by
        simpa using Nat.lt_of_succ_lt_succ hlen
      have hd : ((c = ' ' ∨ c = '\t') ∨ c = '\r') ∨ c = '\n' := by
        simpa [isWS, Char.isWhitespace] using hc
      rcases hd with ((rfl | rfl) | rfl) | rfl <;>
        · simp +decide only [reCheck]
          exact ih rest RState.atom hlen' hrest

theorem parsePattern_ws {p : Str} (h : ∀ c ∈ p, isWS c = true) :
    parsePattern p = (p, []) := by
  cases p with
  | nil => decide
  | cons c rest =>
    have hc := h c (List.mem_cons_self c rest)
    have hne : c ≠ '/' := by
      have hd : ((c = ' ' ∨ c = '\t') ∨ c = '\r') ∨ c = '\n' := by
        simpa [isWS, Char.isWhitespace] using hc
      rcases hd with ((rfl | rfl) | rfl) | rfl <;> decide
    rw [parsePattern, if_neg (by simp [hne])]

theorem createRegex_none {p : Str} {cs : Bool}
    (h : (reValid (parsePattern p).1 &&
      decide (parsePattern p).2.Nodup) = false) :
    createRegex p cs = none := by
  simp only [createRegex]
  rw [if_neg]
  rintro ⟨h1, h2⟩
  have hnd : (parsePattern p).2.Nodup := by
    by_cases hci : ¬ cs ∧ ¬ (parsePattern p).2.contains 'i'
    · rw [if_pos hci] at h2
      exact h2.sublist (List.sublist_append_left _ _)
    · rw [if_neg hci] at h2
      exact h2
  rw [h1] at h
  simp [hnd] at h

/-- C5: a pattern whose compilation fails makes `RegexFilter.apply` return
`[]` without throwing and `RegexFilter.isValid` return false; in
particular `isValid "["` is false while `isValid ""` is true. -/
theorem regex_invalid_soft_fail_C5 :
    (∀ (p : Str) (test : JSRegex → Str → Bool) (elapsed : JSRegex → Str → Nat)
        (files : List FileItem) (opts : FilterOptions),
      opts.pattern = p →
      (reValid (parsePattern p).1 && decide (parsePattern p).2.Nodup) = false →
      RegexFilter.apply test elapsed files opts = [] ∧
        RegexFilter.isValid p = false) ∧
    RegexFilter.isValid (str "[") = false ∧
    RegexFilter.isValid (str "") = true := by
  refine ⟨?_, by decide, by decide⟩
  intro p test elapsed files opts hp hinv
  subst hp
  have ht : jsTrim opts.pattern ≠ [] := by
    intro h0
    have hws := (jsTrim_eq_nil_iff opts.pattern).1 h0
    rw [parsePattern_ws hws] at hinv
    have hv : reValid opts.pattern = true :=
      reCheck_ws _ opts.pattern .start (Nat.lt_succ_self _) hws
    rw [reValid] at hv
    simp [reValid, hv] at hinv
  constructor
  · rw [RegexFilter.apply, if_neg ht, createRegex_none hinv]
  · rw [RegexFilter.isValid, if_neg ht]
    exact hinv

/-- Witness for C5: the invalid pattern `[` yields an empty result and is
reported invalid. -/
theorem regex_invalid_soft_fail_C5_witness :
    RegexFilter.apply (fun _ _ => true) (fun _ _ => 0) [gA] c5Opts = [] ∧
    RegexFilter.isValid (str "[") = false :=
  regex_invalid_soft_fail_C5.1 (str "[") (fun _ _ => true) (fun _ _ => 0)
    [gA] c5Opts rfl (by decide)

/-! ## Claim C7: per-file regex time budget -/

/-- C7: a single match test exceeding the 1000 ms budget reports false
(the file is treated as non-matching on that haystack); the pass is a
total filter over all files — each file's membership depends only on its
own two guarded tests, so a timeout never aborts the pass or throws — and
a file whose two tests both exceed the budget is excluded. -/
theorem regex_timeout_per_file_C7 :
    (∀ (test : JSRegex → Str → Bool) (elapsed : JSRegex → Str → Nat)
        (r : JSRegex) (text : Str), timeoutMs < elapsed r text →
      testWithTimeout test elapsed r text = false) ∧
    (∀ (test : JSRegex → Str → Bool) (elapsed : JSRegex → Str → Nat)
        (files : List FileItem) (opts : FilterOptions) (r : JSRegex),
      jsTrim opts.pattern ≠ [] →
      createRegex opts.pattern opts.caseSensitive = some r →
      ∀ f, f ∈ RegexFilter.apply test elapsed files opts ↔
        f ∈ files ∧ (testWithTimeout test elapsed r f.relativePath ||
          testWithTimeout test elapsed r f.name) = true) ∧
    (∀ (test : JSRegex → Str → Bool) (elapsed : JSRegex → Str → Nat)
        (files : List FileItem) (opts : FilterOptions) (r : JSRegex)
        (f : FileItem),
      jsTrim opts.pattern ≠ [] →
      createRegex opts.pattern opts.caseSensitive = some r →
      timeoutMs < elapsed r f.relativePath → timeoutMs < elapsed r f.name →
      f ∉ RegexFilter.apply test elapsed files opts) := by
  refine ⟨?_, ?_, ?_⟩
  · intro test elapsed r text h
    rw [testWithTimeout, if_pos h]
  · intro test elapsed files opts r ht hr f
    rw [RegexFilter.apply, if_neg ht, hr, List.mem_filter]
  · intro test elapsed files opts r f ht hr h1 h2 hf
    rw [RegexFilter.apply, if_neg ht, hr] at hf
    have hb := (List.mem_filter.1 hf).2
    rw [testWithTimeout, if_pos h1, testWithTimeout, if_pos h2] at hb
    exact absurd hb (by decide)

/-- Witness for C7: with an oracle reporting 1001 ms on every test, the
guarded test reports false and the only file is excluded. -/
theorem regex_timeout_per_file_C7_witness :
    testWithTimeout (fun _ _ => true) (fun _ _ => 1001)
      ⟨str "a", str "i"⟩ (str "x") = false ∧
    gA ∉ RegexFilter.apply (fun _ _ => true) (fun _ _ => 1001) [gA] c7Opts :=
  ⟨regex_timeout_per_file_C7.1 (fun _ _ => true) (fun _ _ => 1001)
      ⟨str "a", str "i"⟩ (str "x") (by decide),
   regex_timeout_per_file_C7.2.2 (fun _ _ => true) (fun _ _ => 1001) [gA]
      c7Opts ⟨str "a", str "i"⟩ gA (by decide) (by decide) (by decide)
      (by decide)⟩

end FileList
